import Mathlib

/-!
Shallow embedding of the field-extraction engine in `src/file_return.js`
(`extractDetails` and its helper `extract`).

Text is modelled as `List Char`.  The JavaScript regular expressions used by
the engine are embedded as terms of a small `Regex` AST that covers exactly
the constructs those regexes use: case-insensitive literals, character
classes, sequencing, alternation, greedy option, greedy and lazy star / plus
of a character class, bounded repetition of a character class, and a single
capturing group.  The matcher `mmatch` enumerates, in ECMAScript backtracking
priority order, the possible (remaining input, captured group) outcomes of
matching a regex at the start of the input; `searchM` implements the leftmost
search of `String.prototype.match`.
-/

/-- Whitespace recognised by the JavaScript `\s` class and `String.trim`,
by code point: space, tab, LF, CR, VT, FF, NBSP, Ogham space mark, the
en-quad..hair-space range, LS, PS, NNBSP, MMSP, ideographic space, BOM. -/
def isWS (c : Char) : Bool :=
  c.toNat == 32 || c.toNat == 9 || c.toNat == 10 || c.toNat == 13 ||
  c.toNat == 11 || c.toNat == 12 || c.toNat == 160 || c.toNat == 5760 ||
  (8192 ≤ c.toNat && c.toNat ≤ 8202) || c.toNat == 8232 || c.toNat == 8233 ||
  c.toNat == 8239 || c.toNat == 8287 || c.toNat == 12288 || c.toNat == 65279

/-- ASCII decimal digit (code points 48-57), the `\d` class. -/
def isDigitC (c : Char) : Bool := 48 ≤ c.toNat && c.toNat ≤ 57

/-- ASCII upper-case letter (code points 65-90). -/
def isUpperC (c : Char) : Bool := 65 ≤ c.toNat && c.toNat ≤ 90

/-- ASCII lower-case letter (code points 97-122). -/
def isLowerC (c : Char) : Bool := 97 ≤ c.toNat && c.toNat ≤ 122

/-- ASCII letter or digit: the class `[a-zA-Z0-9]`, and also `[A-Z0-9]`
under the case-insensitive flag. -/
def isAlnumC (c : Char) : Bool := isDigitC c || isUpperC c || isLowerC c

/-- Lower-casing of ASCII letters, used for the `i` (ignore-case) flag. -/
def toLowerC (c : Char) : Char :=
  if isUpperC c then Char.ofNat (c.toNat + 32) else c

/-- The class `[\d,]` of the currency pattern. -/
def isDigitComma (c : Char) : Bool := isDigitC c || c == ','

/-- The separator class `[:\-]`. -/
def isSepC (c : Char) : Bool := c == ':' || c == '-'

/-- The class of `.` (any character except a line terminator: LF, CR, LS,
PS). -/
def isDotC (c : Char) : Bool :=
  !(c.toNat == 10 || c.toNat == 13 || c.toNat == 8232 || c.toNat == 8233)

/-- The class `[\s\S]` (any character at all). -/
def isAnyC (_ : Char) : Bool := true

/-- Abstract syntax of the regexes appearing in `extractDetails`.
Quantifiers only ever apply to single-character classes in those regexes,
so the star/plus/repetition constructors take a character class directly. -/
inductive Regex : Type where
  | eps : Regex
  | cls (p : Char → Bool) : Regex
  | lit (l : List Char) : Regex
  | seq (a b : Regex) : Regex
  | alt (a b : Regex) : Regex
  | opt (a : Regex) : Regex
  | starG (p : Char → Bool) : Regex
  | starL (p : Char → Bool) : Regex
  | plusG (p : Char → Bool) : Regex
  | repN (p : Char → Bool) (n : Nat) : Regex
  | repRange (p : Char → Bool) (lo ex : Nat) : Regex
  | grp (a : Regex) : Regex

/-- Case-insensitive literal matching: strip `l` (stored lower-case) from the
front of the input, comparing lower-cased input characters. -/
def stripCI : List Char → List Char → Option (List Char)
  | [], s => some s
  | _ :: _, [] => none
  | l :: ls, c :: s => if toLowerC c == l then stripCI ls s else none

/-- Suffixes of the input reachable by consuming a (possibly empty) run of
class-`p` characters, in lazy order: shortest consumption first. -/
def lazyDrops (p : Char → Bool) : List Char → List (List Char)
  | [] => [[]]
  | c :: t => (c :: t) :: (if p c then lazyDrops p t else [])

/-- Consume exactly `n` class-`p` characters. -/
def repDrop (p : Char → Bool) : Nat → List Char → Option (List Char)
  | 0, s => some s
  | _ + 1, [] => none
  | n + 1, c :: t => if p c then repDrop p n t else none

/-- Merge of capture information along a sequence: the first defined
captured value wins (each embedded regex has at most one group). -/
def mergeCap : Option (List Char) → Option (List Char) → Option (List Char)
  | some v, _ => some v
  | none, y => y

/-- Concatenation of the result lists produced for each element. -/
def catMap (f : α → List β) : List α → List β
  | [] => []
  | x :: xs => f x ++ catMap f xs

/-- Backtracking matcher.  `mmatch re s` lists every possible outcome of
matching `re` at the start of `s`, as (remaining input, group-1 capture)
pairs, in ECMAScript backtracking priority order (first element is the
outcome the JavaScript engine commits to). -/
def mmatch : Regex → List Char → List (List Char × Option (List Char))
  | .eps, s => [(s, none)]
  | .cls _, [] => []
  | .cls p, c :: t => if p c then [(t, none)] else []
  | .lit l, s =>
      match stripCI l s with
      | some r => [(r, none)]
      | none => []
  | .seq a b, s =>
      catMap (fun pr =>
        (mmatch b pr.1).map (fun q => (q.1, mergeCap pr.2 q.2))) (mmatch a s)
  | .alt a b, s => mmatch a s ++ mmatch b s
  | .opt a, s => mmatch a s ++ [(s, none)]
  | .starG p, s => ((lazyDrops p s).reverse).map (fun r => (r, none))
  | .starL p, s => (lazyDrops p s).map (fun r => (r, none))
  | .plusG _, [] => []
  | .plusG p, c :: t =>
      if p c then ((lazyDrops p t).reverse).map (fun r => (r, none)) else []
  | .repN p n, s =>
      match repDrop p n s with
      | some r => [(r, none)]
      | none => []
  | .repRange p lo ex, s =>
      match repDrop p lo s with
      | some r =>
          ((lazyDropsBnd p ex r).reverse).map (fun q => (q, none))
      | none => []
  | .grp a, s =>
      (mmatch a s).map (fun pr => (pr.1, some (s.take (s.length - pr.1.length))))
where
  /-- Like `lazyDrops` but consuming at most `b` characters. -/
  lazyDropsBnd (p : Char → Bool) : Nat → List Char → List (List Char)
    | 0, s => [s]
    | _ + 1, [] => [[]]
    | b + 1, c :: t => (c :: t) :: (if p c then lazyDropsBnd p b t else [])

/-- Leftmost search, the semantics of `text.match(regex)` for a regex
without the `g` flag: try each start position from the left, and at the
first position where the regex matches return the committed outcome's
group-1 capture (`none` when the regex defines no group or it is unset). -/
def searchM (re : Regex) : List Char → Option (Option (List Char))
  | [] => ((mmatch re []).head?).map (fun pr => pr.2)
  | c :: t =>
      match (mmatch re (c :: t)).head? with
      | some pr => some pr.2
      | none => searchM re t

/-- The sentinel value `"Not Found"`. -/
def notFound : List Char := ("Not Found".toList)

/-- JavaScript `String.trim` on a character list. -/
def trimL (v : List Char) : List Char :=
  ((v.dropWhile isWS).reverse.dropWhile isWS).reverse

/-- The cleaning pipeline of the `extract` helper:
`match[1].trim().replace(/^[^a-zA-Z0-9]+/, '').trim()`. -/
def cleanVal (v : List Char) : List Char :=
  trimL ((trimL v).dropWhile (fun c => !(isAlnumC c)))

/-- The `extract` helper of `extractDetails`: run the regex against the text;
when the match and its group-1 capture are truthy (capture present and a
nonempty string) return the cleaned capture, otherwise `"Not Found"`. -/
def extract (text : List Char) (re : Regex) : List Char :=
  match searchM re text with
  | some (some v) => if v.isEmpty then notFound else cleanVal v
  | _ => notFound

/-- Right-nested sequence of regexes. -/
def seqs : List Regex → Regex
  | [] => .eps
  | [r] => r
  | r :: rs => .seq r (seqs rs)

/-- The pattern `\s*`. -/
def wsS : Regex := .starG isWS

/-- The pattern `[\s\S]*?` (non-greedy unbounded gap across line breaks). -/
def gapAll : Regex := .starL isAnyC

/-- The pattern `.*?` (non-greedy gap within a line). -/
def dotGap : Regex := .starL isDotC

/-- The pattern `[:\-]?` (optional separator). -/
def sepQ : Regex := .opt (.cls isSepC)

/-- The pattern `([A-Z0-9]{10})` under the `i` flag. -/
def alnum10 : Regex := .grp (.repN isAlnumC 10)

/-- The pattern `(?:the\s*)?`. -/
def theOpt : Regex := .opt (.seq (.lit ("the".toList)) wsS)

/-- The reusable currency pattern `([\d,]+\.\d{2})` (source: `currencyRegex`). -/
def currencyRegex : Regex :=
  .grp (.seq (.plusG isDigitComma)
    (.seq (.cls (fun c => c == '.')) (.repN isDigitC 2)))

/-- The pattern `(\d{4}-\d{2,4})` of the assessment-year rule. -/
def yearGrp : Regex :=
  .grp (.seq (.repN isDigitC 4)
    (.seq (.cls (fun c => c == '-')) (.repRange isDigitC 2 2)))

/-- Common shape of the identifier rules: label, `\s*`, `[:\-]?`, `\s*`,
then the value group. -/
def idRe (L G : Regex) : Regex := .seq L (.seq wsS (.seq sepQ (.seq wsS G)))

/-- Common shape of the monetary rules: label, `[\s\S]*?`, then the
currency group (source builds these as `label + "[\\s\\S]*?" +
currencyRegex.source`). -/
def monetaryRe (L : Regex) : Regex := .seq L (.seq gapAll currencyRegex)

/-- Label part of `/Name\s*of\s*(?:the\s*)?Employer[\s\S]*?TAN/i`. -/
def employerNameL : Regex :=
  seqs [.lit ("name".toList), wsS, .lit ("of".toList), wsS, theOpt,
    .lit ("employer".toList)]

/-- Rule regex `/Name\s*of\s*(?:the\s*)?Employer[\s\S]*?TAN/i` — note that
it defines no capture group. -/
def employerNameRe : Regex :=
  .seq employerNameL (.seq gapAll (.lit ("tan".toList)))

/-- Label part of `/TAN\s*[:\-]?\s*([A-Z0-9]{10})/i`. -/
def tanL : Regex := .lit ("tan".toList)

/-- Rule regex `/TAN\s*[:\-]?\s*([A-Z0-9]{10})/i`. -/
def tanRe : Regex := idRe tanL alnum10

/-- Label part of `/PAN\s*of\s*(?:the\s*)?Deductor\s*[:\-]?\s*([A-Z0-9]{10})/i`. -/
def employerPANL : Regex :=
  seqs [.lit ("pan".toList), wsS, .lit ("of".toList), wsS, theOpt,
    .lit ("deductor".toList)]

/-- Rule regex `/PAN\s*of\s*(?:the\s*)?Deductor\s*[:\-]?\s*([A-Z0-9]{10})/i`. -/
def employerPANRe : Regex := idRe employerPANL alnum10

/-- Label part of `/Name\s*of\s*(?:the\s*)?Employee[\s\S]*?PAN/i`. -/
def employeeNameL : Regex :=
  seqs [.lit ("name".toList), wsS, .lit ("of".toList), wsS, theOpt,
    .lit ("employee".toList)]

/-- Rule regex `/Name\s*of\s*(?:the\s*)?Employee[\s\S]*?PAN/i` — note that
it defines no capture group. -/
def employeeNameRe : Regex :=
  .seq employeeNameL (.seq gapAll (.lit ("pan".toList)))

/-- Label part of `/PAN\s*of\s*(?:the\s*)?Employee\s*[:\-]?\s*([A-Z0-9]{10})/i`. -/
def employeePANL : Regex :=
  seqs [.lit ("pan".toList), wsS, .lit ("of".toList), wsS, theOpt,
    .lit ("employee".toList)]

/-- Rule regex `/PAN\s*of\s*(?:the\s*)?Employee\s*[:\-]?\s*([A-Z0-9]{10})/i`. -/
def employeePANRe : Regex := idRe employeePANL alnum10

/-- Label part of `/Assessment\s*Year\s*[:\-]?\s*(\d{4}-\d{2,4})/i`. -/
def assessmentYearL : Regex :=
  seqs [.lit ("assessment".toList), wsS, .lit ("year".toList)]

/-- Rule regex `/Assessment\s*Year\s*[:\-]?\s*(\d{4}-\d{2,4})/i`. -/
def assessmentYearRe : Regex := idRe assessmentYearL yearGrp

/-- Label part of the gross-salary rule `Gross\s*Salary`. -/
def grossSalaryL : Regex := seqs [.lit ("gross".toList), wsS, .lit ("salary".toList)]

/-- Rule regex `Gross\s*Salary[\s\S]*?([\d,]+\.\d{2})` (flag `i`). -/
def grossSalaryRe : Regex := monetaryRe grossSalaryL

/-- Label part `Standard\s*Deduction.*?u/s\s*16\(ia\)`. -/
def standardDeductionL : Regex :=
  seqs [.lit ("standard".toList), wsS, .lit ("deduction".toList), dotGap,
    .lit ("u/s".toList), wsS, .lit ("16(ia)".toList)]

/-- Rule regex `Standard\s*Deduction.*?u/s\s*16\(ia\)[\s\S]*?([\d,]+\.\d{2})`. -/
def standardDeductionRe : Regex := monetaryRe standardDeductionL

/-- Label part `(?:Tax\s*on\s*employment|Professional\s*Tax).*?u/s\s*16\(iii\)`. -/
def professionalTaxL : Regex :=
  .seq (.alt
      (seqs [.lit ("tax".toList), wsS, .lit ("on".toList), wsS,
        .lit ("employment".toList)])
      (seqs [.lit ("professional".toList), wsS, .lit ("tax".toList)]))
    (seqs [dotGap, .lit ("u/s".toList), wsS, .lit ("16(iii)".toList)])

/-- Rule regex
`(?:Tax\s*on\s*employment|Professional\s*Tax).*?u/s\s*16\(iii\)[\s\S]*?([\d,]+\.\d{2})`. -/
def professionalTaxRe : Regex := monetaryRe professionalTaxL

/-- The quoted literal appearing in the income-chargeable label
(the word Salaries surrounded by single-quote characters). -/
def salariesQ : List Char :=
  [Char.ofNat 39] ++ ("salaries".toList) ++ [Char.ofNat 39]

/-- Label part of the income-chargeable rule
`Income\s*chargeable\s*under\s*the\s*head\s*` followed by the quoted
word Salaries. -/
def incomeChargeableL : Regex :=
  seqs [.lit ("income".toList), wsS, .lit ("chargeable".toList), wsS,
    .lit ("under".toList), wsS, .lit ("the".toList), wsS,
    .lit ("head".toList), wsS, .lit salariesQ]

/-- Rule regex for `incomeChargeable`. -/
def incomeChargeableRe : Regex := monetaryRe incomeChargeableL

/-- Label part `Aggregate\s*of\s*deductible\s*amount\s*under\s*Chapter\s*VI-A`. -/
def totalDeductionsVIAL : Regex :=
  seqs [.lit ("aggregate".toList), wsS, .lit ("of".toList), wsS,
    .lit ("deductible".toList), wsS, .lit ("amount".toList), wsS,
    .lit ("under".toList), wsS, .lit ("chapter".toList), wsS,
    .lit ("vi-a".toList)]

/-- Rule regex for `totalDeductionsVIA`. -/
def totalDeductionsVIARe : Regex := monetaryRe totalDeductionsVIAL

/-- Label part `Total\s*Taxable\s*Income`. -/
def totalTaxableIncomeL : Regex :=
  seqs [.lit ("total".toList), wsS, .lit ("taxable".toList),
    wsS, .lit ("income".toList)]

/-- Rule regex for `totalTaxableIncome`. -/
def totalTaxableIncomeRe : Regex := monetaryRe totalTaxableIncomeL

/-- Label part `Tax\s*on\s*total\s*income`. -/
def taxOnTotalIncomeL : Regex :=
  seqs [.lit ("tax".toList), wsS, .lit ("on".toList), wsS,
    .lit ("total".toList), wsS, .lit ("income".toList)]

/-- Rule regex for `taxOnTotalIncome`. -/
def taxOnTotalIncomeRe : Regex := monetaryRe taxOnTotalIncomeL

/-- Label part `Health\s*and\s*Education\s*Cess`. -/
def cessL : Regex :=
  seqs [.lit ("health".toList), wsS, .lit ("and".toList), wsS,
    .lit ("education".toList), wsS, .lit ("cess".toList)]

/-- Rule regex for `cess`. -/
def cessRe : Regex := monetaryRe cessL

/-- Label part `Total\s*Tax\s*Deducted(?:\s*at\s*Source)?`. -/
def totalTDSL : Regex :=
  seqs [.lit ("total".toList), wsS, .lit ("tax".toList), wsS,
    .lit ("deducted".toList),
    .opt (seqs [wsS, .lit ("at".toList), wsS, .lit ("source".toList)])]

/-- Rule regex for `totalTDS`. -/
def totalTDSRe : Regex := monetaryRe totalTDSL

/-- The body of `extractDetails`: the returned object, as an association
list in the source's insertion order. -/
def extractDetails (text : List Char) : List (List Char × List Char) :=
  [ (("employerName".toList), extract text employerNameRe),
    (("TAN".toList), extract text tanRe),
    (("employerPAN".toList), extract text employerPANRe),
    (("employeeName".toList), extract text employeeNameRe),
    (("employeePAN".toList), extract text employeePANRe),
    (("assessmentYear".toList), extract text assessmentYearRe),
    (("grossSalary".toList), extract text grossSalaryRe),
    (("standardDeduction".toList), extract text standardDeductionRe),
    (("professionalTax".toList), extract text professionalTaxRe),
    (("incomeChargeable".toList), extract text incomeChargeableRe),
    (("totalDeductionsVIA".toList), extract text totalDeductionsVIARe),
    (("totalTaxableIncome".toList), extract text totalTaxableIncomeRe),
    (("taxOnTotalIncome".toList), extract text taxOnTotalIncomeRe),
    (("cess".toList), extract text cessRe),
    (("totalTDS".toList), extract text totalTDSRe) ]

/-- The 15 rule regexes, in the source's order. -/
def ruleRegexes : List Regex :=
  [employerNameRe, tanRe, employerPANRe, employeeNameRe, employeePANRe,
   assessmentYearRe, grossSalaryRe, standardDeductionRe, professionalTaxRe,
   incomeChargeableRe, totalDeductionsVIARe, totalTaxableIncomeRe,
   taxOnTotalIncomeRe, cessRe, totalTDSRe]

/-- The label (leading) part of each of the 15 rule regexes. -/
def ruleLabels : List Regex :=
  [employerNameL, tanL, employerPANL, employeeNameL, employeePANL,
   assessmentYearL, grossSalaryL, standardDeductionL, professionalTaxL,
   incomeChargeableL, totalDeductionsVIAL, totalTaxableIncomeL,
   taxOnTotalIncomeL, cessL, totalTDSL]

/-- The canonical field-key set of the specification. -/
def canonicalKeys : List (List Char) :=
  [("employeeName".toList), ("employeePAN".toList), ("employerName".toList),
   ("employerPAN".toList), ("TAN".toList), ("assessmentYear".toList),
   ("grossSalary".toList), ("standardDeduction".toList),
   ("professionalTax".toList), ("incomeChargeable".toList),
   ("totalDeductionsVIA".toList), ("totalTaxableIncome".toList),
   ("taxOnTotalIncome".toList), ("cess".toList), ("totalTDS".toList)]

/-- Key order of the object literal returned by `extractDetails`. -/
def jsKeys : List (List Char) :=
  [("employerName".toList), ("TAN".toList), ("employerPAN".toList),
   ("employeeName".toList), ("employeePAN".toList), ("assessmentYear".toList),
   ("grossSalary".toList), ("standardDeduction".toList),
   ("professionalTax".toList), ("incomeChargeable".toList),
   ("totalDeductionsVIA".toList), ("totalTaxableIncome".toList),
   ("taxOnTotalIncome".toList), ("cess".toList), ("totalTDS".toList)]

/-- Syntactic check that a regex contains no capture group. -/
def noGroups : Regex → Bool
  | .grp _ => false
  | .seq a b => noGroups a && noGroups b
  | .alt a b => noGroups a && noGroups b
  | .opt a => noGroups a
  | _ => true

/-- Decidable statement that a text contains no occurrence of any rule's
label phrase: at no start position does any of the 15 label regexes match. -/
def labelFree (t : List Char) : Bool :=
  ruleLabels.all (fun L =>
    (List.range (t.length + 1)).all (fun n => (mmatch L (t.drop n)).isEmpty))

/-! ### Basic lemmas about the matcher -/

theorem mem_catMap {α β : Type} {f : α → List β} {l : List α} {y : β} :
    y ∈ catMap f l ↔ ∃ x ∈ l, y ∈ f x := by
  induction l with
  | nil => simp [catMap]
  | cons x xs ih => simp [catMap, ih, List.mem_append, or_and_right, exists_or]

theorem head?_catMap {α β : Type} {f : α → List β} {l : List α} {y : β}
    (h : (catMap f l).head? = some y) : ∃ x ∈ l, (f x).head? = some y := by
  induction l with
  | nil => simp [catMap] at h
  | cons x xs ih =>
      rw [catMap] at h
      cases hx : f x with
      | nil =>
          rw [hx, List.nil_append] at h
          obtain ⟨x', hx', hy⟩ := ih h
          exact ⟨x', List.mem_cons_of_mem _ hx', hy⟩
      | cons z zs =>
          rw [hx] at h
          simp only [List.cons_append, List.head?_cons] at h
          exact ⟨x, List.mem_cons_self x xs, by rw [hx]; simpa using h⟩

theorem mem_of_head?_eq {α : Type} {l : List α} {y : α}
    (h : l.head? = some y) : y ∈ l := by
  cases l with
  | nil => simp at h
  | cons z zs => simp at h; simp [h]

theorem lazyDrops_mem {p : Char → Bool} :
    ∀ {s r : List Char}, r ∈ lazyDrops p s → ∃ u, s = u ++ r ∧ u.all p := by
  intro s
  induction s with
  | nil => intro r h; simp [lazyDrops] at h; exact ⟨[], by simp [h]⟩
  | cons c t ih =>
      intro r h
      rw [lazyDrops] at h
      rcases List.mem_cons.mp h with h1 | h2
      · exact ⟨[], by simp [h1]⟩
      · by_cases hc : p c
        · simp only [hc, if_true] at h2
          obtain ⟨u, hu, hall⟩ := ih h2
          exact ⟨c :: u, by simp [hu, hc, hall]⟩
        · simp [hc] at h2

theorem repDrop_some {p : Char → Bool} :
    ∀ {n : Nat} {s r : List Char}, repDrop p n s = some r →
      ∃ u, s = u ++ r ∧ u.all p ∧ u.length = n := by
  intro n
  induction n with
  | zero => intro s r h; rw [repDrop] at h; exact ⟨[], by simp_all⟩
  | succ m ih =>
      intro s r h
      cases s with
      | nil => rw [repDrop] at h; cases h
      | cons c t =>
          rw [repDrop] at h
          by_cases hc : p c
          · simp only [hc, if_true] at h
            obtain ⟨u, hu, hall, hlen⟩ := ih h
            exact ⟨c :: u, by simp [hu, hc, hall, hlen]⟩
          · simp [hc] at h

theorem stripCI_some :
    ∀ {l s r : List Char}, stripCI l s = some r →
      ∃ u, s = u ++ r ∧ u.map toLowerC = l := by
  intro l
  induction l with
  | nil => intro s r h; rw [stripCI] at h; exact ⟨[], by simp_all⟩
  | cons a as ih =>
      intro s r h
      cases s with
      | nil => rw [stripCI] at h; cases h
      | cons c t =>
          rw [stripCI] at h
          by_cases hc : toLowerC c == a
          · simp only [hc, if_true] at h
            obtain ⟨u, hu, hmap⟩ := ih h
            refine ⟨c :: u, by simp [hu], ?_⟩
            simp [hmap, show toLowerC c = a from by simpa using hc]
          · simp [hc] at h

theorem lazyDropsBnd_mem {p : Char → Bool} :
    ∀ {b : Nat} {s r : List Char}, r ∈ mmatch.lazyDropsBnd p b s →
      ∃ u, s = u ++ r ∧ u.all p := by
  intro b
  induction b with
  | zero =>
      intro s r h; rw [mmatch.lazyDropsBnd] at h
      exact ⟨[], by simp_all⟩
  | succ m ih =>
      intro s r h
      cases s with
      | nil =>
          rw [mmatch.lazyDropsBnd] at h
          exact ⟨[], by simp_all⟩
      | cons c t =>
          rw [mmatch.lazyDropsBnd] at h
          rcases List.mem_cons.mp h with h1 | h2
          · exact ⟨[], by simp [h1]⟩
          · by_cases hc : p c
            · simp only [hc, if_true] at h2
              obtain ⟨u, hu, hall⟩ := ih h2
              exact ⟨c :: u, by simp [hu, hc, hall]⟩
            · simp [hc] at h2

theorem mem_mmatch_seq {a b : Regex} {s : List Char}
    {pr : List Char × Option (List Char)} :
    pr ∈ mmatch (.seq a b) s ↔
      ∃ q1 ∈ mmatch a s, ∃ q2 ∈ mmatch b q1.1,
        pr = (q2.1, mergeCap q1.2 q2.2) := by
  rw [mmatch, mem_catMap]
  constructor
  · rintro ⟨q1, hq1, hpr⟩
    rcases List.mem_map.mp hpr with ⟨q2, hq2, hpr2⟩
    exact ⟨q1, hq1, q2, hq2, hpr2.symm⟩
  · rintro ⟨q1, hq1, q2, hq2, hpr⟩
    exact ⟨q1, hq1, List.mem_map.mpr ⟨q2, hq2, hpr.symm⟩⟩

theorem mem_mmatch_grp {a : Regex} {s : List Char}
    {pr : List Char × Option (List Char)} :
    pr ∈ mmatch (.grp a) s ↔
      ∃ q ∈ mmatch a s, pr = (q.1, some (s.take (s.length - q.1.length))) := by
  rw [mmatch]
  constructor
  · intro h
    rcases List.mem_map.mp h with ⟨q, hq, hpr⟩
    exact ⟨q, hq, hpr.symm⟩
  · rintro ⟨q, hq, hpr⟩
    exact List.mem_map.mpr ⟨q, hq, hpr.symm⟩

theorem mmatch_suffix :
    ∀ (re : Regex) (s : List Char) (pr : List Char × Option (List Char)),
      pr ∈ mmatch re s → ∃ u, s = u ++ pr.1 := by
  intro re
  induction re with
  | eps =>
      intro s pr h; rw [mmatch] at h
      simp at h; exact ⟨[], by simp [h]⟩
  | cls p =>
      intro s pr h
      cases s with
      | nil => rw [mmatch] at h; simp at h
      | cons c t =>
          rw [mmatch] at h
          by_cases hc : p c
          · simp [hc] at h; exact ⟨[c], by simp [h]⟩
          · simp [hc] at h
  | lit l =>
      intro s pr h; rw [mmatch] at h
      cases hs : stripCI l s with
      | none => rw [hs] at h; simp at h
      | some r =>
          rw [hs] at h; simp at h
          obtain ⟨u, hu, _⟩ := stripCI_some hs
          exact ⟨u, by simp [hu, h]⟩
  | seq a b iha ihb =>
      intro s pr h
      rcases mem_mmatch_seq.mp h with ⟨q1, hq1, q2, hq2, hpr⟩
      obtain ⟨u1, hu1⟩ := iha s q1 hq1
      obtain ⟨u2, hu2⟩ := ihb q1.1 q2 hq2
      exact ⟨u1 ++ u2, by simp [hu1, hu2, hpr, List.append_assoc]⟩
  | alt a b iha ihb =>
      intro s pr h
      rw [mmatch] at h
      rcases List.mem_append.mp h with h1 | h2
      · exact iha s pr h1
      · exact ihb s pr h2
  | opt a iha =>
      intro s pr h
      rw [mmatch] at h
      rcases List.mem_append.mp h with h1 | h2
      · exact iha s pr h1
      · simp at h2; exact ⟨[], by simp [h2]⟩
  | starG p =>
      intro s pr h
      rw [mmatch] at h
      rcases List.mem_map.mp h with ⟨r, hr, hpr⟩
      obtain ⟨u, hu, _⟩ := lazyDrops_mem (List.mem_reverse.mp hr)
      exact ⟨u, by simp [hu, ← hpr]⟩
  | starL p =>
      intro s pr h
      rw [mmatch] at h
      rcases List.mem_map.mp h with ⟨r, hr, hpr⟩
      obtain ⟨u, hu, _⟩ := lazyDrops_mem hr
      exact ⟨u, by simp [hu, ← hpr]⟩
  | plusG p =>
      intro s pr h
      cases s with
      | nil => rw [mmatch] at h; simp at h
      | cons c t =>
          rw [mmatch] at h
          by_cases hc : p c
          · simp only [hc, if_true] at h
            rcases List.mem_map.mp h with ⟨r, hr, hpr⟩
            obtain ⟨u, hu, _⟩ := lazyDrops_mem (List.mem_reverse.mp hr)
            exact ⟨c :: u, by simp [hu, ← hpr]⟩
          · simp [hc] at h
  | repN p n =>
      intro s pr h
      rw [mmatch] at h
      cases hs : repDrop p n s with
      | none => rw [hs] at h; simp at h
      | some r =>
          rw [hs] at h; simp at h
          obtain ⟨u, hu, _, _⟩ := repDrop_some hs
          exact ⟨u, by simp [hu, h]⟩
  | repRange p lo ex =>
      intro s pr h
      rw [mmatch] at h
      cases hs : repDrop p lo s with
      | none => rw [hs] at h; simp at h
      | some r =>
          rw [hs] at h
          rcases List.mem_map.mp h with ⟨q, hq, hpr⟩
          obtain ⟨u1, hu1, _, _⟩ := repDrop_some hs
          obtain ⟨u2, hu2, _⟩ := lazyDropsBnd_mem (List.mem_reverse.mp hq)
          exact ⟨u1 ++ u2, by simp [hu1, hu2, ← hpr, List.append_assoc]⟩
  | grp a iha =>
      intro s pr h
      rcases mem_mmatch_grp.mp h with ⟨q, hq, hpr⟩
      obtain ⟨u, hu⟩ := iha s q hq
      exact ⟨u, by simp [hu, hpr]⟩

theorem mmatch_noGroups :
    ∀ (re : Regex), noGroups re = true →
      ∀ (s : List Char) (pr : List Char × Option (List Char)),
        pr ∈ mmatch re s → pr.2 = none := by
  intro re
  induction re with
  | eps => intro _ s pr h; rw [mmatch] at h; simp at h; simp [h]
  | cls p =>
      intro _ s pr h
      cases s with
      | nil => rw [mmatch] at h; simp at h
      | cons c t =>
          rw [mmatch] at h
          by_cases hc : p c
          · simp [hc] at h; simp [h]
          · simp [hc] at h
  | lit l =>
      intro _ s pr h; rw [mmatch] at h
      cases hs : stripCI l s with
      | none => rw [hs] at h; simp at h
      | some r => rw [hs] at h; simp at h; simp [h]
  | seq a b iha ihb =>
      intro hng s pr h
      rw [noGroups] at hng
      rcases (Bool.and_eq_true _ _).mp hng with ⟨ha, hb⟩
      rcases mem_mmatch_seq.mp h with ⟨q1, hq1, q2, hq2, hpr⟩
      have h1 := iha ha s q1 hq1
      have h2 := ihb hb q1.1 q2 hq2
      simp [hpr, h1, h2, mergeCap]
  | alt a b iha ihb =>
      intro hng s pr h
      rw [noGroups] at hng
      rcases (Bool.and_eq_true _ _).mp hng with ⟨ha, hb⟩
      rw [mmatch] at h
      rcases List.mem_append.mp h with h1 | h2
      · exact iha ha s pr h1
      · exact ihb hb s pr h2
  | opt a iha =>
      intro hng s pr h
      rw [noGroups] at hng
      rw [mmatch] at h
      rcases List.mem_append.mp h with h1 | h2
      · exact iha hng s pr h1
      · simp at h2; simp [h2]
  | starG p =>
      intro _ s pr h
      rw [mmatch] at h
      rcases List.mem_map.mp h with ⟨r, _, hpr⟩
      simp [← hpr]
  | starL p =>
      intro _ s pr h
      rw [mmatch] at h
      rcases List.mem_map.mp h with ⟨r, _, hpr⟩
      simp [← hpr]
  | plusG p =>
      intro _ s pr h
      cases s with
      | nil => rw [mmatch] at h; simp at h
      | cons c t =>
          rw [mmatch] at h
          by_cases hc : p c
          · simp only [hc, if_true] at h
            rcases List.mem_map.mp h with ⟨r, _, hpr⟩
            simp [← hpr]
          · simp [hc] at h
  | repN p n =>
      intro _ s pr h
      rw [mmatch] at h
      cases hs : repDrop p n s with
      | none => rw [hs] at h; simp at h
      | some r => rw [hs] at h; simp at h; simp [h]
  | repRange p lo ex =>
      intro _ s pr h
      rw [mmatch] at h
      cases hs : repDrop p lo s with
      | none => rw [hs] at h; simp at h
      | some r =>
          rw [hs] at h
          rcases List.mem_map.mp h with ⟨q, _, hpr⟩
          simp [← hpr]
  | grp a _ =>
      intro hng
      rw [noGroups] at hng
      cases hng

theorem searchM_eq_some {re : Regex} :
    ∀ {t : List Char} {c : Option (List Char)}, searchM re t = some c →
      ∃ p s pr, t = p ++ s ∧ (mmatch re s).head? = some pr ∧ pr.2 = c := by
  intro t
  induction t with
  | nil =>
      intro c h
      rw [searchM] at h
      cases hm : (mmatch re []).head? with
      | none => rw [hm] at h; simp at h
      | some pr =>
          rw [hm] at h; simp at h
          exact ⟨[], [], pr, rfl, hm, h⟩
  | cons x xs ih =>
      intro c h
      rw [searchM] at h
      cases hm : (mmatch re (x :: xs)).head? with
      | none =>
          rw [hm] at h
          simp only at h
          obtain ⟨p, s, pr, hps, hpr, hc⟩ := ih h
          exact ⟨x :: p, s, pr, by simp [hps], hpr, hc⟩
      | some pr =>
          rw [hm] at h
          simp only [Option.some.injEq] at h
          exact ⟨[], x :: xs, pr, rfl, hm, h⟩

theorem searchM_noGroups {re : Regex} (hng : noGroups re = true)
    (t : List Char) : searchM re t = none ∨ searchM re t = some none := by
  cases hs : searchM re t with
  | none => exact Or.inl rfl
  | some c =>
      obtain ⟨p, s, pr, _, hpr, hc⟩ := searchM_eq_some hs
      have := mmatch_noGroups re hng s pr (mem_of_head?_eq hpr)
      right
      rw [← hc, this]

theorem extract_noGroups {re : Regex} (hng : noGroups re = true)
    (t : List Char) : extract t re = notFound := by
  rcases searchM_noGroups hng t with h | h <;> simp [extract, h]

/-! ### Claim theorems -/

/-- C1: totality of the extraction engine.  For every input string,
`extractDetails` returns a mapping whose key list is exactly the fixed
object-literal key order, and every one of the 15 canonical field keys
occurs exactly once among the keys; each value is (by type) a string.  The
function is total, so no error is ever raised. -/
theorem claim_C1_totality (t : List Char) :
    (extractDetails t).map Prod.fst = jsKeys ∧
    (canonicalKeys.all
      (fun k => ((extractDetails t).map Prod.fst).count k == 1)) = true := by
  have h : (extractDetails t).map Prod.fst = jsKeys := rfl
  exact ⟨h, by rw [h]; decide⟩

/-- C2 evaluation: on the spec's full-match scenario text
`"Name of the Employer: Acme Corp TAN: ABCDE1234F"` the code returns
`employerName = "Not Found"` (its regex defines no capture group), not
`"Acme Corp"` as the claim states; the `TAN` half of the claim does hold. -/
theorem claim_C2_eval :
    ((extractDetails
        ("Name of the Employer: Acme Corp TAN: ABCDE1234F".toList)).lookup
      ("employerName".toList) = some notFound) ∧
    ((extractDetails
        ("Name of the Employer: Acme Corp TAN: ABCDE1234F".toList)).lookup
      ("TAN".toList) = some ("ABCDE1234F".toList)) := by
  constructor <;> decide

/-- C3: for every input text, the `employerName` and `employeeName` fields
of `extractDetails` are `"Not Found"`, because their regexes define no
capture group, so the designated captured value is always absent. -/
theorem claim_C3_names_not_found (t : List Char) :
    (extractDetails t).lookup ("employerName".toList) = some notFound ∧
    (extractDetails t).lookup ("employeeName".toList) = some notFound := by
  have h1 : (extractDetails t).lookup ("employerName".toList) =
      some (extract t employerNameRe) := rfl
  have h2 : (extractDetails t).lookup ("employeeName".toList) =
      some (extract t employeeNameRe) := rfl
  rw [h1, h2, @extract_noGroups employerNameRe (by decide) t,
    @extract_noGroups employeeNameRe (by decide) t]
  exact ⟨rfl, rfl⟩

/-- C10: determinism — `extractDetails` is a pure function of the input
text, so two applications to the same text yield identical mappings. -/
theorem claim_C10_deterministic (t1 t2 : List Char) (h : t1 = t2) :
    extractDetails t1 = extractDetails t2 := by rw [h]

/-- Witness for C10 at a concrete input. -/
theorem claim_C10_witness :
    ("some text".toList) = ("some text".toList) ∧
    extractDetails ("some text".toList) = extractDetails ("some text".toList) :=
  ⟨rfl, claim_C10_deterministic ("some text".toList) ("some text".toList) rfl⟩

/-- A text on which a sequence regex matches at some position has a match of
the sequence's first component at that position. -/
theorem extract_seq_label_free {L R : Regex} {t : List Char}
    (h : ∀ n, n ≤ t.length → mmatch L (t.drop n) = []) :
    extract t (.seq L R) = notFound := by
  cases hs : searchM (.seq L R) t with
  | none => simp [extract, hs]
  | some c =>
      obtain ⟨p, s, pr, hps, hpr, _⟩ := searchM_eq_some hs
      exfalso
      have hmem := mem_of_head?_eq hpr
      have hL : mmatch L s = [] := by
        have hd : t.drop p.length = s := by rw [hps]; exact List.drop_left p s
        have hlen : p.length ≤ t.length := by
          rw [hps, List.length_append]; exact Nat.le_add_right _ _
        rw [← hd]; exact h p.length hlen
      rw [mmatch, hL] at hmem
      simp [catMap] at hmem

/-- C7: sentinel correctness — on a text containing no occurrence of any
rule's label phrase (no label regex matches at any position), every field
of `extractDetails` is the sentinel `"Not Found"`. -/
theorem claim_C7_sentinel (t : List Char) (h : labelFree t = true) :
    ((extractDetails t).all (fun p => p.2 == notFound)) = true := by
  have hl : ∀ L, L ∈ ruleLabels → ∀ n, n ≤ t.length →
      mmatch L (t.drop n) = [] := by
    intro L hL n hn
    have h1 := List.all_eq_true.mp h L hL
    have h2 := List.all_eq_true.mp h1 n
      (List.mem_range.mpr (Nat.lt_succ_of_le hn))
    exact List.isEmpty_iff.mp h2
  have e1 : extract t employerNameRe = notFound :=
    extract_seq_label_free (hl employerNameL (by simp [ruleLabels]))
  have e2 : extract t tanRe = notFound :=
    extract_seq_label_free (hl tanL (by simp [ruleLabels]))
  have e3 : extract t employerPANRe = notFound :=
    extract_seq_label_free (hl employerPANL (by simp [ruleLabels]))
  have e4 : extract t employeeNameRe = notFound :=
    extract_seq_label_free (hl employeeNameL (by simp [ruleLabels]))
  have e5 : extract t employeePANRe = notFound :=
    extract_seq_label_free (hl employeePANL (by simp [ruleLabels]))
  have e6 : extract t assessmentYearRe = notFound :=
    extract_seq_label_free (hl assessmentYearL (by simp [ruleLabels]))
  have e7 : extract t grossSalaryRe = notFound :=
    extract_seq_label_free (hl grossSalaryL (by simp [ruleLabels]))
  have e8 : extract t standardDeductionRe = notFound :=
    extract_seq_label_free (hl standardDeductionL (by simp [ruleLabels]))
  have e9 : extract t professionalTaxRe = notFound :=
    extract_seq_label_free (hl professionalTaxL (by simp [ruleLabels]))
  have e10 : extract t incomeChargeableRe = notFound :=
    extract_seq_label_free (hl incomeChargeableL (by simp [ruleLabels]))
  have e11 : extract t totalDeductionsVIARe = notFound :=
    extract_seq_label_free (hl totalDeductionsVIAL (by simp [ruleLabels]))
  have e12 : extract t totalTaxableIncomeRe = notFound :=
    extract_seq_label_free (hl totalTaxableIncomeL (by simp [ruleLabels]))
  have e13 : extract t taxOnTotalIncomeRe = notFound :=
    extract_seq_label_free (hl taxOnTotalIncomeL (by simp [ruleLabels]))
  have e14 : extract t cessRe = notFound :=
    extract_seq_label_free (hl cessL (by simp [ruleLabels]))
  have e15 : extract t totalTDSRe = notFound :=
    extract_seq_label_free (hl totalTDSL (by simp [ruleLabels]))
  simp [extractDetails, e1, e2, e3, e4, e5, e6, e7, e8,
    e9, e10, e11, e12, e13, e14, e15]

/-- Witness for C7 at a concrete label-free text. -/
theorem claim_C7_witness :
    labelFree ("hello world 12.34".toList) = true ∧
    ((extractDetails ("hello world 12.34".toList)).all
      (fun p => p.2 == notFound)) = true :=
  ⟨by decide, claim_C7_sentinel ("hello world 12.34".toList) (by decide)⟩

/-- C8: label-variant tolerance.  The texts with and without the optional
filler word between the parts of the employer-name label extract
identically (whole mapping equal), and the two alternate phrasings of the
professional-tax label both yield `professionalTax = "2,000.00"`. -/
theorem claim_C8_label_variants :
    extractDetails ("Name of Employer: Acme Corp TAN: ABCDE1234F".toList) =
      extractDetails ("Name of the Employer: Acme Corp TAN: ABCDE1234F".toList) ∧
    (extractDetails ("Tax on employment u/s 16(iii) ... 2,000.00".toList)).lookup
      ("professionalTax".toList) = some ("2,000.00".toList) ∧
    (extractDetails ("Professional Tax u/s 16(iii) ... 2,000.00".toList)).lookup
      ("professionalTax".toList) = some ("2,000.00".toList) := by
  refine ⟨by decide, by decide, by decide⟩

/-- A list whose first character (if any) fails `p` is unchanged by
`dropWhile p`. -/
theorem dropWhile_eq_self_of_take1 {p : Char → Bool} {l : List Char}
    (h : (l.take 1).all (fun c => !(p c)) = true) : l.dropWhile p = l := by
  cases l with
  | nil => rfl
  | cons c t =>
      have hc : p c = false := by
        have := List.all_eq_true.mp h c (by simp)
        simpa using this
      simp [List.dropWhile_cons, hc]

/-- Under the same leading- and trailing-character conditions, the trim
step is the identity. -/
theorem trimL_eq_self {l : List Char}
    (hlead : (l.take 1).all (fun c => !(isWS c)) = true)
    (htrail : (l.reverse.take 1).all (fun c => !(isWS c)) = true) :
    trimL l = l := by
  unfold trimL
  rw [dropWhile_eq_self_of_take1 hlead, dropWhile_eq_self_of_take1 htrail,
    List.reverse_reverse]

/-- C9: cleaning idempotence — the cleaning step applied to an
already-clean value (leading character, if any, alphanumeric; no leading
or trailing whitespace) leaves the value unchanged. -/
theorem claim_C9_clean_idempotent (v : List Char)
    (hpunct : (v.take 1).all isAlnumC = true)
    (hlead : (v.take 1).all (fun c => !(isWS c)) = true)
    (htrail : (v.reverse.take 1).all (fun c => !(isWS c)) = true) :
    cleanVal v = v := by
  unfold cleanVal
  rw [trimL_eq_self hlead htrail]
  have hdrop : v.dropWhile (fun c => !(isAlnumC c)) = v := by
    apply dropWhile_eq_self_of_take1
    cases v with
    | nil => rfl
    | cons c t =>
        have := List.all_eq_true.mp hpunct c (by simp)
        simp [List.all_eq_true]
        simpa using this
  rw [hdrop, trimL_eq_self hlead htrail]

/-- Witness for C9 at a concrete already-clean value. -/
theorem claim_C9_witness :
    (("A1B 2C3".toList).take 1).all isAlnumC = true ∧
    (("A1B 2C3".toList).take 1).all (fun c => !(isWS c)) = true ∧
    (("A1B 2C3".toList).reverse.take 1).all (fun c => !(isWS c)) = true ∧
    cleanVal ("A1B 2C3".toList) = ("A1B 2C3".toList) :=
  ⟨by decide, by decide, by decide,
    claim_C9_clean_idempotent ("A1B 2C3".toList)
      (by decide) (by decide) (by decide)⟩

/-- Alphanumeric characters are not whitespace. -/
theorem not_ws_of_alnum {c : Char} (h : isAlnumC c = true) : isWS c = false := by
  unfold isAlnumC isDigitC isUpperC isLowerC at h
  unfold isWS
  simp only [Bool.or_eq_true, Bool.and_eq_true, beq_iff_eq,
    decide_eq_true_eq] at h
  simp only [Bool.or_eq_false_iff, Bool.and_eq_false_iff,
    beq_eq_false_iff_ne, decide_eq_false_iff_not, ne_eq]
  omega

/-- An element that fails the predicate survives `dropWhile`. -/
theorem mem_dropWhile_of_not {p : Char → Bool} {c : Char} :
    ∀ {l : List Char}, c ∈ l → p c = false → c ∈ l.dropWhile p := by
  intro l
  induction l with
  | nil => intro hc _; cases hc
  | cons x t ih =>
      intro hc hp
      by_cases hx : p x
      · rw [List.dropWhile_cons, if_pos hx]
        rcases List.mem_cons.mp hc with h1 | h2
        · exact absurd (h1 ▸ hp) (by simp [hx])
        · exact ih h2 hp
      · rw [List.dropWhile_cons, if_neg hx]
        exact hc

/-- A non-whitespace element survives the trim step. -/
theorem mem_trimL {v : List Char} {c : Char} (hc : c ∈ v)
    (hw : isWS c = false) : c ∈ trimL v := by
  unfold trimL
  rw [List.mem_reverse]
  exact mem_dropWhile_of_not (List.mem_reverse.mpr (mem_dropWhile_of_not hc hw)) hw

/-- A value containing an alphanumeric character cleans to a nonempty
value. -/
theorem cleanVal_ne_nil {v : List Char} (h : ∃ c ∈ v, isAlnumC c = true) :
    cleanVal v ≠ [] := by
  obtain ⟨c, hc, hal⟩ := h
  intro hnil
  have h1 : c ∈ trimL v := mem_trimL hc (not_ws_of_alnum hal)
  have h2 : c ∈ (trimL v).dropWhile (fun c => !(isAlnumC c)) :=
    mem_dropWhile_of_not h1 (by simp [hal])
  have h3 : c ∈ cleanVal v := mem_trimL h2 (not_ws_of_alnum hal)
  rw [hnil] at h3
  exact absurd h3 (List.not_mem_nil c)

/-- The leading character of an all-alphanumeric value is not whitespace. -/
theorem take1_not_ws_of_all_alnum {v : List Char} (h : v.all isAlnumC = true) :
    (v.take 1).all (fun c => !(isWS c)) = true := by
  apply List.all_eq_true.mpr
  intro c hc
  have hcv : c ∈ v := List.mem_of_mem_take hc
  simp [not_ws_of_alnum (List.all_eq_true.mp h c hcv)]

/-- The trailing character of an all-alphanumeric value is not whitespace. -/
theorem revtake1_not_ws_of_all_alnum {v : List Char}
    (h : v.all isAlnumC = true) :
    (v.reverse.take 1).all (fun c => !(isWS c)) = true := by
  apply List.all_eq_true.mpr
  intro c hc
  have hcv : c ∈ v := List.mem_reverse.mp (List.mem_of_mem_take hc)
  simp [not_ws_of_alnum (List.all_eq_true.mp h c hcv)]

/-- An all-alphanumeric value is already clean. -/
theorem cleanVal_of_all_alnum {v : List Char} (h : v.all isAlnumC = true) :
    cleanVal v = v := by
  unfold cleanVal
  rw [trimL_eq_self (take1_not_ws_of_all_alnum h)
    (revtake1_not_ws_of_all_alnum h)]
  have hdrop : v.dropWhile (fun c => !(isAlnumC c)) = v := by
    apply dropWhile_eq_self_of_take1
    apply List.all_eq_true.mpr
    intro c hc
    simp [List.all_eq_true.mp h c (List.mem_of_mem_take hc)]
  rw [hdrop, trimL_eq_self (take1_not_ws_of_all_alnum h)
    (revtake1_not_ws_of_all_alnum h)]

theorem mmatch_gapAll_nil : mmatch gapAll [] = [([], none)] := rfl

theorem mmatch_gapAll_cons (c : Char) (t : List Char) :
    mmatch gapAll (c :: t) = ((c :: t), none) :: mmatch gapAll t := by
  show (lazyDrops isAnyC (c :: t)).map _ = _
  rw [lazyDrops]
  simp only [isAnyC, if_true, List.map_cons]
  rfl

theorem seq_gap_head (X : Regex) :
    ∀ s : List Char,
      ((mmatch (.seq gapAll X) s).head?).map (fun pr => pr.2) = searchM X s := by
  intro s
  induction s with
  | nil =>
      rw [show mmatch (.seq gapAll X) [] =
          (mmatch X []).map (fun q => (q.1, mergeCap none q.2)) from by
        rw [mmatch, mmatch_gapAll_nil, catMap, catMap, List.append_nil]]
      rw [List.head?_map (fun q => ((q.1 : List Char), mergeCap none q.2)) (mmatch X []), searchM]
      cases (mmatch X []).head? with
      | none => rfl
      | some q => rfl
  | cons c t ih =>
      rw [show mmatch (.seq gapAll X) (c :: t) =
          (mmatch X (c :: t)).map (fun q => (q.1, mergeCap none q.2)) ++
            mmatch (.seq gapAll X) t from by
        conv_lhs => rw [mmatch, mmatch_gapAll_cons, catMap]
        rw [mmatch]]
      rw [searchM]
      cases hX : mmatch X (c :: t) with
      | nil =>
          simp only [List.map_nil, List.nil_append, List.head?_nil]
          exact ih
      | cons q qs => rfl

/-- Digits are alphanumeric. -/
theorem alnum_of_digit {c : Char} (h : isDigitC c = true) : isAlnumC c = true := by
  unfold isAlnumC
  simp [h]

/-- Span of a prefix match: taking the consumed length recovers the
consumed prefix. -/
theorem take_span (u r : List Char) :
    (u ++ r).take ((u ++ r).length - r.length) = u := by
  have h : (u ++ r).length - r.length = u.length := by simp
  rw [h, List.take_left]

/-- Outcomes of a greedy class star: no capture, a consumed run of class
characters. -/
theorem mem_mmatch_starG {p : Char → Bool} {s : List Char}
    {pr : List Char × Option (List Char)} (h : pr ∈ mmatch (.starG p) s) :
    pr.2 = none ∧ ∃ u, s = u ++ pr.1 ∧ u.all p = true := by
  rw [mmatch] at h
  obtain ⟨r, hr, hpr⟩ := List.mem_map.mp h
  obtain ⟨u, hu, hall⟩ := lazyDrops_mem (List.mem_reverse.mp hr)
  exact ⟨by simp [← hpr], u, by simp [hu, ← hpr], hall⟩

/-- Outcomes of a greedy class plus: no capture, a nonempty consumed run. -/
theorem mem_mmatch_plusG {p : Char → Bool} {s : List Char}
    {pr : List Char × Option (List Char)} (h : pr ∈ mmatch (.plusG p) s) :
    pr.2 = none ∧ ∃ u, s = u ++ pr.1 ∧ u.all p = true ∧ u ≠ [] := by
  cases s with
  | nil => rw [mmatch] at h; cases h
  | cons c t =>
      rw [mmatch] at h
      by_cases hc : p c
      · simp only [hc, if_true] at h
        obtain ⟨r, hr, hpr⟩ := List.mem_map.mp h
        obtain ⟨u, hu, hall⟩ := lazyDrops_mem (List.mem_reverse.mp hr)
        exact ⟨by simp [← hpr], c :: u,
          by simp [hu, ← hpr], by simp [hc, hall], by simp⟩
      · simp [hc] at h

/-- Outcomes of a character class: one consumed class character. -/
theorem mem_mmatch_cls {p : Char → Bool} {s : List Char}
    {pr : List Char × Option (List Char)} (h : pr ∈ mmatch (.cls p) s) :
    pr.2 = none ∧ ∃ c, s = c :: pr.1 ∧ p c = true := by
  cases s with
  | nil => rw [mmatch] at h; cases h
  | cons c t =>
      rw [mmatch] at h
      by_cases hc : p c
      · simp only [hc, if_true, List.mem_singleton] at h
        exact ⟨by simp [h], c, by simp [h], hc⟩
      · simp [hc] at h

/-- Outcomes of an option: an outcome of the body, or no consumption. -/
theorem mem_mmatch_opt {a : Regex} {s : List Char}
    {pr : List Char × Option (List Char)} (h : pr ∈ mmatch (.opt a) s) :
    pr ∈ mmatch a s ∨ pr = (s, none) := by
  rw [mmatch] at h
  rcases List.mem_append.mp h with h1 | h2
  · exact Or.inl h1
  · simp at h2; exact Or.inr (by simp [h2])

/-- Outcomes of an exact class repetition: no capture, a consumed run of
exactly `n` class characters. -/
theorem mem_mmatch_repN {p : Char → Bool} {n : Nat} {s : List Char}
    {pr : List Char × Option (List Char)} (h : pr ∈ mmatch (.repN p n) s) :
    pr.2 = none ∧ ∃ u, s = u ++ pr.1 ∧ u.all p = true ∧ u.length = n := by
  rw [mmatch] at h
  cases hrep : repDrop p n s with
  | none => rw [hrep] at h; cases h
  | some r =>
      rw [hrep] at h
      simp at h
      obtain ⟨u, hu, hall, hlen⟩ := repDrop_some hrep
      exact ⟨by simp [h], u, by simp [hu, h], hall, hlen⟩

/-- Outcomes of the ten-character alphanumeric capture group. -/
theorem mem_mmatch_alnum10 {s : List Char}
    {pr : List Char × Option (List Char)} (h : pr ∈ mmatch alnum10 s) :
    ∃ u, s = u ++ pr.1 ∧ u.all isAlnumC = true ∧ u.length = 10 ∧
      pr.2 = some u := by
  obtain ⟨q, hq, hpr⟩ := mem_mmatch_grp.mp h
  obtain ⟨-, u, hu, hall, hlen⟩ := mem_mmatch_repN hq
  refine ⟨u, ?_, hall, hlen, ?_⟩
  · rw [hpr]; exact hu
  · rw [hpr]
    simp only
    rw [hu, take_span]

/-- Outcomes of a bounded class repetition range: no capture, a consumed
run of class characters. -/
theorem mem_mmatch_repRange {p : Char → Bool} {lo ex : Nat} {s : List Char}
    {pr : List Char × Option (List Char)}
    (h : pr ∈ mmatch (.repRange p lo ex) s) :
    pr.2 = none ∧ ∃ u, s = u ++ pr.1 ∧ u.all p = true := by
  rw [mmatch] at h
  cases hrep : repDrop p lo s with
  | none => rw [hrep] at h; cases h
  | some r =>
      rw [hrep] at h
      obtain ⟨q, hq, hpr⟩ := List.mem_map.mp h
      obtain ⟨u1, hu1, hall1, _⟩ := repDrop_some hrep
      obtain ⟨u2, hu2, hall2⟩ := lazyDropsBnd_mem (List.mem_reverse.mp hq)
      refine ⟨by simp [← hpr], u1 ++ u2, ?_, ?_⟩
      · rw [hu1, hu2, ← hpr]; simp [List.append_assoc]
      · simp [List.all_append, hall1, hall2]

/-- A nonempty list all of whose elements satisfy `p` has an element
satisfying `p`. -/
theorem exists_mem_of_all_ne_nil {p : Char → Bool} {u : List Char}
    (hne : u ≠ []) (hall : u.all p = true) : ∃ c ∈ u, p c = true := by
  cases u with
  | nil => exact absurd rfl hne
  | cons c t => exact ⟨c, by simp, List.all_eq_true.mp hall c (by simp)⟩

/-- Every capture of the assessment-year group contains an alphanumeric
character (it starts with four digits). -/
theorem yearGrp_capture_alnum {s : List Char}
    {pr : List Char × Option (List Char)} (hp : pr ∈ mmatch yearGrp s)
    {v : List Char} (hv : pr.2 = some v) : ∃ c ∈ v, isAlnumC c = true := by
  obtain ⟨q, hq, hpr⟩ := mem_mmatch_grp.mp hp
  obtain ⟨q1, hq1, qB, hqB, hqeq⟩ := mem_mmatch_seq.mp hq
  obtain ⟨-, u1, hu1, hall1, hlen1⟩ := mem_mmatch_repN hq1
  obtain ⟨u2, hu2⟩ := mmatch_suffix _ q1.1 qB hqB
  have hq1' : q.1 = qB.1 := by rw [hqeq]
  have hS : s = (u1 ++ u2) ++ qB.1 := by
    rw [hu1, hu2, List.append_assoc]
  have hcap : v = u1 ++ u2 := by
    have : pr.2 = some (s.take (s.length - q.1.length)) := by rw [hpr]
    rw [hv] at this
    have h2 : s.take (s.length - q.1.length) = u1 ++ u2 := by
      rw [hq1', hS, take_span]
    rw [h2] at this
    exact Option.some.inj this
  have hne : u1 ≠ [] := by
    intro hn; rw [hn] at hlen1; cases hlen1
  obtain ⟨c, hc, hcp⟩ := exists_mem_of_all_ne_nil hne hall1
  exact ⟨c, by simp [hcap, hc], alnum_of_digit hcp⟩

/-- Every capture of the currency group contains an alphanumeric character
(it ends with two digits). -/
theorem currencyRegex_capture_alnum {s : List Char}
    {pr : List Char × Option (List Char)} (hp : pr ∈ mmatch currencyRegex s)
    {v : List Char} (hv : pr.2 = some v) : ∃ c ∈ v, isAlnumC c = true := by
  obtain ⟨q, hq, hpr⟩ := mem_mmatch_grp.mp hp
  obtain ⟨q1, hq1, qB, hqB, hqeq⟩ := mem_mmatch_seq.mp hq
  obtain ⟨-, u1, hu1, hall1, hne1⟩ := mem_mmatch_plusG hq1
  obtain ⟨q2, hq2, q3, hq3, hqBeq⟩ := mem_mmatch_seq.mp hqB
  obtain ⟨-, d, hd, hdp⟩ := mem_mmatch_cls hq2
  obtain ⟨-, u3, hu3, hall3, hlen3⟩ := mem_mmatch_repN hq3
  have hq1' : q.1 = q3.1 := by rw [hqeq, hqBeq]
  have hS : s = (u1 ++ d :: u3) ++ q3.1 := by
    rw [hu1, hd, hu3]
    simp [List.append_assoc]
  have hcap : v = u1 ++ d :: u3 := by
    have : pr.2 = some (s.take (s.length - q.1.length)) := by rw [hpr]
    rw [hv] at this
    have h2 : s.take (s.length - q.1.length) = u1 ++ d :: u3 := by
      rw [hq1', hS, take_span]
    rw [h2] at this
    exact Option.some.inj this
  have hne3 : u3 ≠ [] := by
    intro hn; rw [hn] at hlen3; cases hlen3
  obtain ⟨c, hc, hcp⟩ := exists_mem_of_all_ne_nil hne3 hall3
  exact ⟨c, by simp [hcap, hc], alnum_of_digit hcp⟩

/-- Head-tracking decomposition of a sequence match: the committed outcome
of a sequence comes from some outcome of the first part followed by the
committed outcome of the second part on the remainder. -/
theorem head?_mmatch_seq {a b : Regex} {s : List Char}
    {pr : List Char × Option (List Char)}
    (h : (mmatch (.seq a b) s).head? = some pr) :
    ∃ q1 ∈ mmatch a s, ∃ q2, (mmatch b q1.1).head? = some q2 ∧
      pr = (q2.1, mergeCap q1.2 q2.2) := by
  rw [mmatch] at h
  obtain ⟨x, hx, hfx⟩ := head?_catMap h
  rw [List.head?_map] at hfx
  cases hq : (mmatch b x.1).head? with
  | none => rw [hq] at hfx; cases hfx
  | some q2 =>
      rw [hq] at hfx
      simp only [Option.map_some', Option.some.injEq] at hfx
      exact ⟨x, hx, q2, hq, hfx.symm⟩

/-- On a monetary rule (label with no groups, non-greedy unbounded gap,
currency group), a captured value is the first currency match in the text
after a label match. -/
theorem monetary_first_currency {L : Regex} (hng : noGroups L = true)
    {t v : List Char} (hs : searchM (monetaryRe L) t = some (some v)) :
    ∃ pre lbl rest, t = pre ++ lbl ++ rest ∧
      (∃ cap, (rest, cap) ∈ mmatch L (lbl ++ rest)) ∧
      searchM currencyRegex rest = some (some v) := by
  obtain ⟨p, s, pr, hps, hpr, hc⟩ := searchM_eq_some hs
  obtain ⟨q1, hq1, q2, hq2, hpr2⟩ := head?_mmatch_seq hpr
  have hq1n : q1.2 = none := mmatch_noGroups L hng s q1 hq1
  have hsearch : searchM currencyRegex q1.1 = some q2.2 := by
    rw [← seq_gap_head currencyRegex q1.1, hq2]
    rfl
  have hv : q2.2 = some v := by
    have h2 : pr.2 = mergeCap q1.2 q2.2 := by rw [hpr2]
    rw [hq1n, hc] at h2
    exact h2.symm
  obtain ⟨u, hu⟩ := mmatch_suffix L s q1 hq1
  refine ⟨p, u, q1.1, ?_, ⟨q1.2, ?_⟩, ?_⟩
  · rw [hps, hu, List.append_assoc]
  · rw [← hu]; exact hq1
  · rw [hsearch, hv]

/-- A non-sentinel result of `extract` comes from a nonempty captured value
and equals its cleaned form. -/
theorem extract_ne_notFound {re : Regex} {t : List Char}
    (h : extract t re ≠ notFound) :
    ∃ v, searchM re t = some (some v) ∧ v ≠ [] ∧ extract t re = cleanVal v := by
  cases hs : searchM re t with
  | none => exact absurd (by unfold extract; rw [hs]) h
  | some c =>
      cases c with
      | none => exact absurd (by unfold extract; rw [hs]) h
      | some v =>
          by_cases hv : v.isEmpty = true
          · exact absurd (by unfold extract; rw [hs]; simp [hv]) h
          · refine ⟨v, rfl, by simpa [List.isEmpty_iff] using hv, ?_⟩
            unfold extract
            rw [hs]
            simp [hv]

/-- Decomposition of a successful identifier-shaped rule match: the text
splits into a prefix, a label span, optional whitespace, an optional
separator, optional whitespace, and the remainder on which the value group
matches and captures the value. -/
theorem idRe_decomp {L G : Regex} (hng : noGroups L = true) {t v : List Char}
    (hs : searchM (idRe L G) t = some (some v)) :
    ∃ pre lbl w1 sp w2 s4,
      t = pre ++ (lbl ++ (w1 ++ (sp ++ (w2 ++ s4)))) ∧
      (∃ cap, (w1 ++ (sp ++ (w2 ++ s4)), cap) ∈
        mmatch L (lbl ++ (w1 ++ (sp ++ (w2 ++ s4))))) ∧
      w1.all isWS = true ∧
      (sp = [] ∨ ∃ c, sp = [c] ∧ isSepC c = true) ∧
      w2.all isWS = true ∧
      (∃ q ∈ mmatch G s4, q.2 = some v) := by
  obtain ⟨p, s, pr, hps, hpr, hc⟩ := searchM_eq_some hs
  have hmem := mem_of_head?_eq hpr
  obtain ⟨q1, hq1, qA, hqA, hprEq⟩ := mem_mmatch_seq.mp hmem
  obtain ⟨q2, hq2, qB, hqB, hqAEq⟩ := mem_mmatch_seq.mp hqA
  obtain ⟨q3, hq3, qC, hqC, hqBEq⟩ := mem_mmatch_seq.mp hqB
  obtain ⟨q4, hq4, q5, hq5, hqCEq⟩ := mem_mmatch_seq.mp hqC
  have hq1n : q1.2 = none := mmatch_noGroups L hng s q1 hq1
  obtain ⟨hq2n, w1, hw1, hw1all⟩ := mem_mmatch_starG hq2
  have hsep : q3.2 = none ∧
      (q2.1 = q3.1 ∨ ∃ c, q2.1 = c :: q3.1 ∧ isSepC c = true) := by
    rcases mem_mmatch_opt hq3 with h1 | h2
    · obtain ⟨hn, c, hc2, hcp⟩ := mem_mmatch_cls h1
      exact ⟨hn, Or.inr ⟨c, hc2, hcp⟩⟩
    · exact ⟨by rw [h2], Or.inl (by rw [h2])⟩
  obtain ⟨hq4n, w2, hw2, hw2all⟩ := mem_mmatch_starG hq4
  have hv5 : q5.2 = some v := by
    have hm : pr.2 =
        mergeCap q1.2 (mergeCap q2.2 (mergeCap q3.2 (mergeCap q4.2 q5.2))) := by
      rw [hprEq, hqAEq, hqBEq, hqCEq]
    rw [hq1n, hq2n, hsep.1, hq4n, hc] at hm
    simp only [mergeCap] at hm
    exact hm.symm
  obtain ⟨lbl, hlbl⟩ := mmatch_suffix L s q1 hq1
  rcases hsep.2 with hspA | ⟨c, hspB, hcp⟩
  · refine ⟨p, lbl, w1, [], w2, q4.1, ?_, ⟨q1.2, ?_⟩, hw1all,
      Or.inl rfl, hw2all, q5, hq5, hv5⟩
    · rw [hps, hlbl, hw1, hspA, hw2]
      simp [List.append_assoc]
    · have hrest : q1.1 = w1 ++ ([] ++ (w2 ++ q4.1)) := by
        rw [hw1, hspA, hw2]; simp
      rw [← hrest, ← hlbl]
      exact hq1
  · refine ⟨p, lbl, w1, [c], w2, q4.1, ?_, ⟨q1.2, ?_⟩, hw1all,
      Or.inr ⟨c, rfl, hcp⟩, hw2all, q5, hq5, hv5⟩
    · rw [hps, hlbl, hw1, hspB, hw2]
      simp [List.append_assoc]
    · have hrest : q1.1 = w1 ++ ([c] ++ (w2 ++ q4.1)) := by
        rw [hw1, hspB, hw2]; simp
      rw [← hrest, ← hlbl]
      exact hq1

/-- C5: monetary-field semantics.  First, the concrete scenario: on
`"Gross Salary\n(a) as per provisions...\n1,23,456.00"` the engine yields
`grossSalary = "1,23,456.00"` (label and value on different lines).
Second, in general, whenever a monetary rule (a group-free label followed
by the non-greedy unbounded gap and the currency group) produces a
captured value `v`, the text splits into a prefix, a label span matched by
the label regex, and a remainder, and `v` is the leftmost (first) currency
pattern match in that remainder. -/
theorem claim_C5_monetary :
    ((extractDetails
        ("Gross Salary\n(a) as per provisions...\n1,23,456.00".toList)).lookup
      ("grossSalary".toList) = some ("1,23,456.00".toList)) ∧
    (∀ (L : Regex) (t v : List Char), noGroups L = true →
      searchM (monetaryRe L) t = some (some v) →
      ∃ pre lbl rest, t = pre ++ lbl ++ rest ∧
        (∃ cap, (rest, cap) ∈ mmatch L (lbl ++ rest)) ∧
        searchM currencyRegex rest = some (some v)) := by
  refine ⟨by decide, ?_⟩
  intro L t v hng hs
  exact monetary_first_currency hng hs

/-- Witness for C5 at the gross-salary scenario text. -/
theorem claim_C5_witness :
    noGroups grossSalaryL = true ∧
    searchM (monetaryRe grossSalaryL)
      ("Gross Salary\n(a) as per provisions...\n1,23,456.00".toList) =
      some (some ("1,23,456.00".toList)) ∧
    (∃ pre lbl rest,
      ("Gross Salary\n(a) as per provisions...\n1,23,456.00".toList) =
        pre ++ lbl ++ rest ∧
      (∃ cap, (rest, cap) ∈ mmatch grossSalaryL (lbl ++ rest)) ∧
      searchM currencyRegex rest = some (some ("1,23,456.00".toList))) :=
  ⟨by decide, by decide,
    claim_C5_monetary.2 grossSalaryL _ _ (by decide) (by decide)⟩

/-- A non-sentinel value of an identifier-shaped rule is a ten-character
alphanumeric token immediately following the label and an optional
separator, and is returned uncleaned (it is already clean). -/
theorem id_rule_value {L : Regex} (hng : noGroups L = true) {t : List Char}
    (h : extract t (idRe L alnum10) ≠ notFound) :
    ∃ pre lbl w1 sp w2 v rest,
      t = pre ++ (lbl ++ (w1 ++ (sp ++ (w2 ++ (v ++ rest))))) ∧
      (∃ cap, (w1 ++ (sp ++ (w2 ++ (v ++ rest))), cap) ∈
        mmatch L (lbl ++ (w1 ++ (sp ++ (w2 ++ (v ++ rest)))))) ∧
      w1.all isWS = true ∧
      (sp = [] ∨ ∃ c, sp = [c] ∧ isSepC c = true) ∧
      w2.all isWS = true ∧
      v.length = 10 ∧ v.all isAlnumC = true ∧
      extract t (idRe L alnum10) = v := by
  obtain ⟨v0, hsearch, hv0ne, hveq⟩ := extract_ne_notFound h
  obtain ⟨pre, lbl, w1, sp, w2, s4, hT, ⟨cap, hmemL⟩, hw1, hsp, hw2, q, hq, hqv⟩ :=
    idRe_decomp hng hsearch
  obtain ⟨u, hu, hall, hulen, hu2⟩ := mem_mmatch_alnum10 hq
  have huv : u = v0 := by
    rw [hu2] at hqv
    exact Option.some.inj hqv
  refine ⟨pre, lbl, w1, sp, w2, u, q.1, ?_, ⟨cap, ?_⟩, hw1, hsp, hw2,
    hulen, hall, ?_⟩
  · rw [hT, hu]
  · rw [show u ++ q.1 = s4 from hu.symm]
    exact hmemL
  · rw [hveq, ← huv, cleanVal_of_all_alnum hall]

/-- C6: identifier-field semantics.  For each of the rules `TAN`,
`employerPAN` and `employeePAN`, every non-sentinel value is a
ten-character alphanumeric token that immediately follows the rule's label
(matched by the label regex) and an optional separator (colon or dash),
with only whitespace in between. -/
theorem claim_C6_identifier :
    (∀ t, extract t tanRe ≠ notFound →
      ∃ pre lbl w1 sp w2 v rest,
        t = pre ++ (lbl ++ (w1 ++ (sp ++ (w2 ++ (v ++ rest))))) ∧
        (∃ cap, (w1 ++ (sp ++ (w2 ++ (v ++ rest))), cap) ∈
          mmatch tanL (lbl ++ (w1 ++ (sp ++ (w2 ++ (v ++ rest)))))) ∧
        w1.all isWS = true ∧
        (sp = [] ∨ ∃ c, sp = [c] ∧ isSepC c = true) ∧
        w2.all isWS = true ∧
        v.length = 10 ∧ v.all isAlnumC = true ∧
        extract t tanRe = v) ∧
    (∀ t, extract t employerPANRe ≠ notFound →
      ∃ pre lbl w1 sp w2 v rest,
        t = pre ++ (lbl ++ (w1 ++ (sp ++ (w2 ++ (v ++ rest))))) ∧
        (∃ cap, (w1 ++ (sp ++ (w2 ++ (v ++ rest))), cap) ∈
          mmatch employerPANL (lbl ++ (w1 ++ (sp ++ (w2 ++ (v ++ rest)))))) ∧
        w1.all isWS = true ∧
        (sp = [] ∨ ∃ c, sp = [c] ∧ isSepC c = true) ∧
        w2.all isWS = true ∧
        v.length = 10 ∧ v.all isAlnumC = true ∧
        extract t employerPANRe = v) ∧
    (∀ t, extract t employeePANRe ≠ notFound →
      ∃ pre lbl w1 sp w2 v rest,
        t = pre ++ (lbl ++ (w1 ++ (sp ++ (w2 ++ (v ++ rest))))) ∧
        (∃ cap, (w1 ++ (sp ++ (w2 ++ (v ++ rest))), cap) ∈
          mmatch employeePANL (lbl ++ (w1 ++ (sp ++ (w2 ++ (v ++ rest)))))) ∧
        w1.all isWS = true ∧
        (sp = [] ∨ ∃ c, sp = [c] ∧ isSepC c = true) ∧
        w2.all isWS = true ∧
        v.length = 10 ∧ v.all isAlnumC = true ∧
        extract t employeePANRe = v) := by
  refine ⟨?_, ?_, ?_⟩
  · intro t h
    exact id_rule_value (L := tanL) (by decide) h
  · intro t h
    exact id_rule_value (L := employerPANL) (by decide) h
  · intro t h
    exact id_rule_value (L := employeePANL) (by decide) h

/-- Witness for C6 at the concrete text `"TAN: ABCDE1234F"`. -/
theorem claim_C6_witness :
    extract ("TAN: ABCDE1234F".toList) tanRe ≠ notFound ∧
    (∃ pre lbl w1 sp w2 v rest,
      ("TAN: ABCDE1234F".toList) =
        pre ++ (lbl ++ (w1 ++ (sp ++ (w2 ++ (v ++ rest))))) ∧
      (∃ cap, (w1 ++ (sp ++ (w2 ++ (v ++ rest))), cap) ∈
        mmatch tanL (lbl ++ (w1 ++ (sp ++ (w2 ++ (v ++ rest)))))) ∧
      w1.all isWS = true ∧
      (sp = [] ∨ ∃ c, sp = [c] ∧ isSepC c = true) ∧
      w2.all isWS = true ∧
      v.length = 10 ∧ v.all isAlnumC = true ∧
      extract ("TAN: ABCDE1234F".toList) tanRe = v) :=
  ⟨by decide, claim_C6_identifier.1 ("TAN: ABCDE1234F".toList) (by decide)⟩

/-- Captures of an identifier-shaped rule clean to a nonempty value,
provided the value group's captures always contain an alphanumeric. -/
theorem cleanVal_ne_nil_of_idG {L G : Regex} (hng : noGroups L = true)
    (hcap : ∀ s (pr : List Char × Option (List Char)), pr ∈ mmatch G s →
      ∀ w, pr.2 = some w → ∃ c ∈ w, isAlnumC c = true)
    {t v : List Char} (hs : searchM (idRe L G) t = some (some v)) :
    cleanVal v ≠ [] := by
  obtain ⟨pre, lbl, w1, sp, w2, s4, hT, hmemEx, hw1, hsp, hw2, q, hq, hqv⟩ :=
    idRe_decomp hng hs
  exact cleanVal_ne_nil (hcap s4 q hq v hqv)

/-- Captures of an alphanumeric value group contain an alphanumeric. -/
theorem alnum10_capture_alnum {s : List Char}
    {pr : List Char × Option (List Char)} (hp : pr ∈ mmatch alnum10 s)
    {w : List Char} (hw : pr.2 = some w) : ∃ c ∈ w, isAlnumC c = true := by
  obtain ⟨u, _, hall, hulen, hu2⟩ := mem_mmatch_alnum10 hp
  rw [hu2] at hw
  have huw : u = w := Option.some.inj hw
  subst huw
  exact exists_mem_of_all_ne_nil
    (by intro hn; rw [hn] at hulen; cases hulen) hall

/-- Captures of a monetary rule clean to a nonempty value. -/
theorem cleanVal_ne_nil_of_monetary {L : Regex} (hng : noGroups L = true)
    {t v : List Char} (hs : searchM (monetaryRe L) t = some (some v)) :
    cleanVal v ≠ [] := by
  obtain ⟨pre, lbl, rest, _, _, hcur⟩ := monetary_first_currency hng hs
  obtain ⟨p2, s2, pr2, _, hpr2, hc2⟩ := searchM_eq_some hcur
  exact cleanVal_ne_nil
    (currencyRegex_capture_alnum (mem_of_head?_eq hpr2) hc2)

/-- A group-free rule never produces a captured value. -/
theorem no_capture_of_noGroups {re : Regex} (hng : noGroups re = true)
    {t v : List Char} (hs : searchM re t = some (some v)) : False := by
  rcases searchM_noGroups hng t with hn | hn <;> rw [hs] at hn <;> simp at hn

/-- C4: per-rule cleaning and sentinel.  (i) The scenario raw value
`": ABCDE1234F"` cleans to `"ABCDE1234F"`.  (ii) When the search finds no
match, or a match whose designated group is unset, the value is the
sentinel.  (iii) When a rule matches with a nonempty raw captured value,
the value is that capture trimmed, stripped of its leading run of
non-alphanumeric characters, and trimmed again.  (iv) For each of the 15
rules of `extractDetails` the cleaned value of a captured match is never
empty, so an empty cleaned value only arises when no value was captured,
and the field is then the sentinel by (ii). -/
theorem claim_C4_cleaning :
    (cleanVal (": ABCDE1234F".toList) = ("ABCDE1234F".toList)) ∧
    (∀ re t, searchM re t = none → extract t re = notFound) ∧
    (∀ re t, searchM re t = some none → extract t re = notFound) ∧
    (∀ re t v, searchM re t = some (some v) → v ≠ [] →
      extract t re = trimL ((trimL v).dropWhile (fun c => !(isAlnumC c)))) ∧
    (∀ re, re ∈ ruleRegexes → ∀ t v, searchM re t = some (some v) →
      cleanVal v ≠ []) := by
  refine ⟨by decide, ?_, ?_, ?_, ?_⟩
  · intro re t h
    unfold extract
    rw [h]
  · intro re t h
    unfold extract
    rw [h]
  · intro re t v h hv
    unfold extract
    rw [h]
    show (if v.isEmpty = true then notFound else cleanVal v) = _
    rw [if_neg (by simp [List.isEmpty_iff, hv])]
    rfl
  · intro re hre t v hs
    simp only [ruleRegexes, List.mem_cons, List.not_mem_nil, or_false] at hre
    rcases hre with h|h|h|h|h|h|h|h|h|h|h|h|h|h|h <;> subst h
    · exact absurd hs (fun hs => no_capture_of_noGroups (by decide) hs)
    · exact cleanVal_ne_nil_of_idG (L := tanL) (by decide)
        (fun _ _ hp _ hw => alnum10_capture_alnum hp hw) hs
    · exact cleanVal_ne_nil_of_idG (L := employerPANL) (by decide)
        (fun _ _ hp _ hw => alnum10_capture_alnum hp hw) hs
    · exact absurd hs (fun hs => no_capture_of_noGroups (by decide) hs)
    · exact cleanVal_ne_nil_of_idG (L := employeePANL) (by decide)
        (fun _ _ hp _ hw => alnum10_capture_alnum hp hw) hs
    · exact cleanVal_ne_nil_of_idG (L := assessmentYearL) (by decide)
        (fun _ _ hp _ hw => yearGrp_capture_alnum hp hw) hs
    · exact cleanVal_ne_nil_of_monetary (L := grossSalaryL) (by decide) hs
    · exact cleanVal_ne_nil_of_monetary (L := standardDeductionL) (by decide) hs
    · exact cleanVal_ne_nil_of_monetary (L := professionalTaxL) (by decide) hs
    · exact cleanVal_ne_nil_of_monetary (L := incomeChargeableL) (by decide) hs
    · exact cleanVal_ne_nil_of_monetary (L := totalDeductionsVIAL) (by decide) hs
    · exact cleanVal_ne_nil_of_monetary (L := totalTaxableIncomeL) (by decide) hs
    · exact cleanVal_ne_nil_of_monetary (L := taxOnTotalIncomeL) (by decide) hs
    · exact cleanVal_ne_nil_of_monetary (L := cessL) (by decide) hs
    · exact cleanVal_ne_nil_of_monetary (L := totalTDSL) (by decide) hs

/-- Witness for C4: a rule match whose hypotheses hold concretely. -/
theorem claim_C4_witness :
    (tanRe ∈ ruleRegexes) ∧
    searchM tanRe ("TAN: ABCDE1234F".toList) =
      some (some ("ABCDE1234F".toList)) ∧
    cleanVal ("ABCDE1234F".toList) ≠ [] ∧
    searchM employerNameRe ("no labels here".toList) = none ∧
    extract ("no labels here".toList) employerNameRe = notFound :=
  ⟨by simp [ruleRegexes], by decide,
    claim_C4_cleaning.2.2.2.2 tanRe (by simp [ruleRegexes]) ("TAN: ABCDE1234F".toList)
      ("ABCDE1234F".toList) (by decide),
    by decide,
    claim_C4_cleaning.2.1 employerNameRe ("no labels here".toList) (by decide)⟩
